import Mathlib

/-!
Verification of the cross-reference / similarity engine of the
bible-search repository (src/bible.rs, src/_main.rs, src/synonyms.rs).

The Rust code is shallowly embedded: strings are Lean strings processed
as character lists (the texts involved are ASCII, where Lean's
Char.isAlpha / Char.toLower / Char.isWhitespace agree with Rust's
char::is_alphabetic / to_lowercase / is_whitespace); `HashMap<String,
Vec<String>>` becomes an association list queried with List.lookup;
`f32` scores are modelled by exact rationals, with a separate F32 type
(finite / inf / negInf / nan) tracking the special values where they
matter (metric parsing and the comparator).  Rust's stable `sort_by`
is modelled by a stable insertion sort: a stable sort's output is
determined by the comparison preorder, so the two agree element for
element.
-/

/-- A Bible verse record (struct Verse of bible.rs). -/
structure Verse where
  book : String
  chapter : Nat
  verse : Nat
  text : String
deriving DecidableEq, Repr

/-- The synonym table (SynonymMapper.synonyms of synonyms.rs): a map from a
word to its list of synonyms, embedded as an association list. -/
abbrev SynonymMapper : Type := List (String × List String)

/-- The SynonymMap invariant of the spec (§3): every mapped word's synonym
list contains the word itself. -/
def synMapInvariant (m : SynonymMapper) : Prop :=
  ∀ p ∈ m, p.1 ∈ p.2

instance (m : SynonymMapper) : Decidable (synMapInvariant m) := by
  unfold synMapInvariant
  infer_instance

/-- Look a word up in the synonym table (HashMap::get). -/
def synGet (m : SynonymMapper) (w : String) : Option (List String) :=
  List.lookup w m

/-- Drop leading and trailing characters failing the predicate "is
alphabetic" (Rust w.trim_matches(|c| !c.is_alphabetic())). -/
def trimNonAlpha (cs : List Char) : List Char :=
  ((cs.dropWhile (fun c => !c.isAlpha)).reverse.dropWhile (fun c => !c.isAlpha)).reverse

/-- Split a character list on whitespace, dropping empty pieces (Rust
str::split_whitespace). The first argument accumulates the current token
in reverse. -/
def splitWsAux (acc : List Char) : List Char → List (List Char)
  | [] => if acc = [] then [] else [acc.reverse]
  | c :: cs =>
    if c.isWhitespace then
      if acc = [] then splitWsAux [] cs else acc.reverse :: splitWsAux [] cs
    else
      splitWsAux (c :: acc) cs

def splitWhitespace (cs : List Char) : List (List Char) :=
  splitWsAux [] cs

/-- The stop-word list of extract_words (bible.rs lines 439-447). -/
def stop_words : List String :=
  ["a", "an", "and", "are", "as", "at", "be", "but", "by", "for", "from",
   "has", "he", "in", "is", "it", "its", "of", "on", "that", "the", "to",
   "was", "will", "with", "shall", "unto", "thee", "thou", "thy", "ye",
   "hath", "his", "her", "him", "them", "they", "their", "all", "not",
   "which", "there", "this", "these", "those", "when", "who", "what",
   "into", "upon", "out", "up", "have", "had", "do", "did", "done",
   "said", "came", "went", "been", "were", "being"]

/-- The tokenizing pipeline of extract_words before the synonym step:
lowercase, split on whitespace, trim non-alphabetic ends, keep tokens that
are non-empty, longer than two characters and not stop words. -/
def significantWords (text : String) : List String :=
  (((splitWhitespace (text.toList.map Char.toLower)).map trimNonAlpha).map
      (fun cs => String.mk cs)).filter
    (fun w => !(w = "") && decide (2 < w.length) && !(stop_words.contains w))

/-- Lexicographic comparison of strings by character code, matching Rust's
Ord for String (byte order on UTF-8 equals code-point order). -/
def listCharLe : List Char → List Char → Bool
  | [], _ => true
  | _ :: _, [] => false
  | a :: as, b :: bs =>
    if a.toNat < b.toNat then true
    else if b.toNat < a.toNat then false
    else listCharLe as bs

def strLe (a b : String) : Bool :=
  listCharLe a.toList b.toList

/-- Stable insertion into an ascending sorted list (equal strings are
identical, so any sorted permutation is the same list as Rust's stable
Vec::sort output). -/
def insertStr (x : String) : List String → List String
  | [] => [x]
  | y :: ys => if strLe x y then x :: y :: ys else y :: insertStr x ys

def sortStrings : List String → List String
  | [] => []
  | y :: ys => insertStr y (sortStrings ys)

/-- Remove adjacent duplicates (Rust Vec::dedup); applied after sorting it
removes all duplicates. -/
def dedupAdj : List String → List String
  | [] => []
  | [a] => [a]
  | a :: b :: rest => if a = b then dedupAdj (b :: rest) else a :: dedupAdj (b :: rest)

/-- The word-level synonym step of extract_words: every mapped word is
replaced by its full synonym list, an unmapped word is kept. -/
def expandWords (m : SynonymMapper) : List String → List String
  | [] => []
  | w :: ws =>
    match synGet m w with
    | some syns => syns ++ expandWords m ws
    | none => w :: expandWords m ws

/-- extract_words of bible.rs (lines 437-475): tokenize, optionally expand
with synonyms, then sort and dedup. -/
def extract_words (text : String) (m : SynonymMapper) (use_synonyms : Bool) : List String :=
  let words := significantWords text
  if use_synonyms then
    dedupAdj (sortStrings (expandWords m words))
  else
    dedupAdj (sortStrings words)

/-- calculate_jaccard_similarity of bible.rs (lines 478-494); the f32
result is modelled as an exact rational (the division is guarded by the
union-size test, so the real computation stays finite — see the F32
refinement below). -/
def calculate_jaccard_similarity (words1 words2 : List String) : ℚ :=
  if words1 = [] ∨ words2 = [] then 0
  else
    let set1 := words1.toFinset
    let set2 := words2.toFinset
    let intersection := (set1 ∩ set2).card
    let union := (set1 ∪ set2).card
    if union = 0 then 0 else (intersection : ℚ) / (union : ℚ)

/-- calculate_similarity of _main.rs (lines 728-744), the legacy duplicate
of calculate_jaccard_similarity. -/
def calculate_similarity (words1 words2 : List String) : ℚ :=
  if words1 = [] ∨ words2 = [] then 0
  else
    let set1 := words1.toFinset
    let set2 := words2.toFinset
    let intersection := (set1 ∩ set2).card
    let union := (set1 ∪ set2).card
    if union = 0 then 0 else (intersection : ℚ) / (union : ℚ)

/-- A 32-bit float as far as this engine observes it: an exact finite value
or one of the special values. Rounding of finite values is not modelled
(no comparison made by the engine is close enough to a rounding boundary
to be changed by it); the special values are tracked exactly, since they
decide the parse/clamp/comparator behaviour. -/
inductive F32 where
  | finite (q : ℚ)
  | inf
  | negInf
  | nan
deriving DecidableEq, Repr

/-- IEEE comparison a >= b, false whenever a NaN is involved. -/
def F32.fge (a b : F32) : Bool :=
  match a, b with
  | .nan, _ => false
  | _, .nan => false
  | .inf, _ => true
  | _, .inf => false
  | _, .negInf => true
  | .negInf, _ => false
  | .finite p, .finite q => decide (q ≤ p)

/-- Rust f32::clamp with finite bounds lo <= hi: NaN stays NaN, otherwise
the value is forced into the interval. -/
def F32.clamp (x : F32) (lo hi : ℚ) : F32 :=
  match x with
  | .nan => .nan
  | .inf => .finite hi
  | .negInf => .finite lo
  | .finite q => if q < lo then .finite lo else if hi < q then .finite hi else .finite q

/-- IEEE division of finite values: the only way the engine could leave the
finite fragment (0/0 is NaN, x/0 is a signed infinity). -/
def F32.fdiv (a b : ℚ) : F32 :=
  if b = 0 then
    if a = 0 then .nan else if 0 < a then .inf else .negInf
  else .finite (a / b)

/-- f32::partial_cmp: none exactly when a NaN is involved. -/
def F32.partialCmp (a b : F32) : Option Ordering :=
  match a, b with
  | .nan, _ => none
  | _, .nan => none
  | .inf, .inf => some .eq
  | .inf, _ => some .gt
  | _, .inf => some .lt
  | .negInf, .negInf => some .eq
  | .negInf, _ => some .lt
  | _, .negInf => some .gt
  | .finite p, .finite q => some (compare p q)

/-- calculate_jaccard_similarity again, with the division carried out in
(modelled) f32 instead of ℚ, to show the computation never leaves the
finite fragment. -/
def calculate_jaccard_similarity_f32 (words1 words2 : List String) : F32 :=
  if words1 = [] ∨ words2 = [] then .finite 0
  else
    let set1 := words1.toFinset
    let set2 := words2.toFinset
    let intersection := (set1 ∩ set2).card
    let union := (set1 ∪ set2).card
    if union = 0 then .finite 0 else F32.fdiv (intersection : ℚ) (union : ℚ)

/-- One pass of the variation loop of extract_ngrams (bible.rs lines
513-525) for the enumerated position p: if the original word at p has
synonyms, every current variation is copied once per synonym with that
position replaced, and the copies are appended. -/
def ngramVariationStep (m : SynonymMapper) (vs : List (List String)) (p : Nat × String) :
    List (List String) :=
  match synGet m p.2 with
  | some syns => vs ++ vs.flatMap (fun v => syns.map (fun s => v.set p.1 s))
  | none => vs

/-- All synonym variations of one n-gram (the use_synonyms branch of
extract_ngrams): fold the per-position step over the enumerated n-gram,
starting from the literal n-gram. -/
def ngramVariations (m : SynonymMapper) (g : List String) : List (List String) :=
  g.enum.foldl (ngramVariationStep m) [g]

/-- extract_ngrams of bible.rs (lines 497-534). Note the n-gram source
word list is extract_words with use_synonyms hard-coded to false — a
sorted, deduplicated list, not the source-order word sequence. -/
def extract_ngrams (text : String) (n : Nat) (m : SynonymMapper) (use_synonyms : Bool) :
    List (List String) :=
  let words := extract_words text m false
  if words.length < n then []
  else
    (List.range (words.length - n + 1)).flatMap (fun i =>
      let g := (words.drop i).take n
      if use_synonyms then ngramVariations m g else [g])

/-- has_ngram_match of bible.rs (lines 537-550). -/
def has_ngram_match (text1 text2 : String) (n : Nat) (m : SynonymMapper)
    (use_synonyms : Bool) : Bool :=
  let ngrams1 := extract_ngrams text1 n m use_synonyms
  let ngrams2 := extract_ngrams text2 n m use_synonyms
  ngrams1.any (fun g => ngrams2.contains g)

/-- The counting loop of count_ngram_matches: walk ngrams1, counting a
gram when it occurs in ngrams2 and was not counted before. -/
def countMatchesAux (ngrams2 counted : List (List String)) :
    List (List String) → Nat
  | [] => 0
  | g :: gs =>
    if ngrams2.contains g && !(counted.contains g) then
      1 + countMatchesAux ngrams2 (g :: counted) gs
    else
      countMatchesAux ngrams2 counted gs

/-- count_ngram_matches of bible.rs (lines 553-570): the number of
distinct n-grams of text1's variant set present in text2's variant set.
The Rust function returns the count as f32; the natural number is the
exact value it carries. -/
def count_ngram_matches (text1 text2 : String) (n : Nat) (m : SynonymMapper)
    (use_synonyms : Bool) : Nat :=
  let ngrams1 := extract_ngrams text1 n m use_synonyms
  let ngrams2 := extract_ngrams text2 n m use_synonyms
  countMatchesAux ngrams2 [] ngrams1

/-- count_ngram_matches as the f32 the Rust function returns (`count as
f32`, exact for any feasible count). -/
def count_ngram_matches_f32 (text1 text2 : String) (n : Nat) (m : SynonymMapper)
    (use_synonyms : Bool) : F32 :=
  .finite (count_ngram_matches text1 text2 n m use_synonyms : ℚ)


/-- Trim leading and trailing whitespace (Rust str::trim). -/
def trimWs (cs : List Char) : List Char :=
  ((cs.dropWhile Char.isWhitespace).reverse.dropWhile Char.isWhitespace).reverse

/-- Repeatedly strip the suffix pat (Rust str::trim_end_matches). The fuel
is the string length: each removal strips at least one character. -/
def trimEndAux (pat : List Char) : Nat → List Char → List Char
  | 0, cs => cs
  | fuel + 1, cs =>
    if pat ≠ [] ∧ pat.isSuffixOf cs then
      trimEndAux pat fuel (cs.take (cs.length - pat.length))
    else cs

def trimEndMatches (cs pat : List Char) : List Char :=
  trimEndAux pat cs.length cs

/-- The numeric value of a digit string. -/
def digitsToNat (ds : List Char) : Nat :=
  ds.foldl (fun acc c => acc * 10 + (c.toNat - 48)) 0

/-- Rust usize::from_str: an optional leading plus sign then one or more
digits (overflow of the 64-bit range is not modelled; no claim reaches
it). -/
def parseUsize (cs : List Char) : Option Nat :=
  match cs with
  | '+' :: ds =>
    if ds ≠ [] ∧ ds.all Char.isDigit then some (digitsToNat ds) else none
  | ds =>
    if ds ≠ [] ∧ ds.all Char.isDigit then some (digitsToNat ds) else none

/-- The mantissa of Rust's float grammar: Digits '.'? Digits? or '.'
Digits, at least one digit in all. -/
def parseMantissa (cs : List Char) : Option ℚ :=
  let ip := cs.takeWhile Char.isDigit
  let rest := cs.dropWhile Char.isDigit
  match rest with
  | [] => if ip = [] then none else some (digitsToNat ip : ℚ)
  | '.' :: fp =>
    if fp.all Char.isDigit ∧ (ip ≠ [] ∨ fp ≠ []) then
      some ((digitsToNat ip : ℚ) + (digitsToNat fp : ℚ) / (10 ^ fp.length : ℚ))
    else none
  | _ => none

/-- The exponent of Rust's float grammar: an optional sign then digits. -/
def parseExponent (cs : List Char) : Option ℤ :=
  match cs with
  | '+' :: ds =>
    if ds ≠ [] ∧ ds.all Char.isDigit then some (digitsToNat ds : ℤ) else none
  | '-' :: ds =>
    if ds ≠ [] ∧ ds.all Char.isDigit then some (-(digitsToNat ds : ℤ)) else none
  | ds =>
    if ds ≠ [] ∧ ds.all Char.isDigit then some (digitsToNat ds : ℤ) else none

/-- An unsigned number of Rust's float grammar, with its optional
exponent. -/
def parseNumber (cs : List Char) : Option ℚ :=
  let m := cs.takeWhile (fun c => c ≠ 'e')
  let rest := cs.dropWhile (fun c => c ≠ 'e')
  match rest with
  | [] => parseMantissa m
  | _ :: ex =>
    match parseMantissa m, parseExponent ex with
    | some mv, some e =>
      if 0 ≤ e then some (mv * (10 ^ e.toNat : ℚ))
      else some (mv / (10 ^ (-e).toNat : ℚ))
    | _, _ => none

/-- Rust f32::from_str on an already lowercased string: an optional sign,
then inf, infinity, nan or a number. Finite values are kept exactly;
decimal-to-f32 rounding is not modelled (it never moves a value across
the [0,1] clamp bounds used here), while overflow to infinity is
irrelevant to the clamp outcome (both sides clamp to the same bound). -/
def parseF32 (s : String) : Option F32 :=
  let cs := s.toList
  let signSplit : Bool × List Char :=
    match cs with
    | '+' :: rest => (false, rest)
    | '-' :: rest => (true, rest)
    | rest => (false, rest)
  let neg := signSplit.1
  let body := signSplit.2
  if body = "inf".toList ∨ body = "infinity".toList then
    some (if neg then .negInf else .inf)
  else if body = "nan".toList then
    some .nan
  else
    match parseNumber body with
    | some q => some (.finite (if neg then -q else q))
    | none => none

/-- enum SimilarityMetric of bible.rs (lines 31-34). -/
inductive SimilarityMetric where
  | Jaccard (threshold : F32)
  | NGram (n : Nat)
deriving DecidableEq, Repr

/-- parse_similarity_metric of bible.rs (lines 37-58): trim and lowercase;
a string ending in "gram" or "-gram" whose stripped prefix is a positive
integer selects the n-gram metric; otherwise the string is parsed as f32
and clamped into [0,1] for the Jaccard threshold, an unparsable string
falling back to threshold 0.3. -/
def gramMetric (cs : List Char) : Option SimilarityMetric :=
  if "-gram".toList.isSuffixOf cs ∨ "gram".toList.isSuffixOf cs then
    match parseUsize (trimEndMatches (trimEndMatches cs "-gram".toList) "gram".toList) with
    | some n => if 0 < n then some (.NGram n) else none
    | none => none
  else none

def parse_similarity_metric (s : String) : SimilarityMetric :=
  let cs := (trimWs s.toList).map Char.toLower
  match gramMetric cs with
  | some metric => metric
  | none =>
    match parseF32 (String.mk cs) with
    | some v => .Jaccard (v.clamp 0 1)
    | none => .Jaccard (.finite (3 / 10))

/-- The reference threshold lies in the unit interval. -/
def F32.inUnitInterval : F32 → Prop
  | .finite q => 0 ≤ q ∧ q ≤ 1
  | _ => False

instance (x : F32) : Decidable x.inUnitInterval := by
  cases x <;> simp [F32.inUnitInterval] <;> infer_instance

/-- The chapter-verse tail of the reference regex: exactly digits, a
colon, digits. -/
def matchChapterVerse (cs : List Char) : Option (Nat × Nat) :=
  let c1 := cs.takeWhile Char.isDigit
  let rest := cs.dropWhile Char.isDigit
  match rest with
  | ':' :: r2 =>
    let c2 := r2.takeWhile Char.isDigit
    let r3 := r2.dropWhile Char.isDigit
    if c1 ≠ [] ∧ c2 ≠ [] ∧ r3 = [] then some (digitsToNat c1, digitsToNat c2) else none
  | _ => none

/-- The lazy scan of the regex (.+?)\s(\d+):(\d+)$: book split points are
tried shortest first; acc holds the book read so far in reverse. A
newline cannot be part of the book (the dot of the regex excludes it). -/
def parseRefAux (acc : List Char) : List Char → Option (String × Nat × Nat)
  | [] => none
  | c :: rest =>
    if c.isWhitespace ∧ acc ≠ [] then
      match matchChapterVerse rest with
      | some (ch, v) => some (String.mk acc.reverse, ch, v)
      | none => if c = '\n' then none else parseRefAux (c :: acc) rest
    else if c = '\n' then none
    else parseRefAux (c :: acc) rest

/-- The reference parse of find_cross_references (bible.rs lines 297-310):
trim, then match Book Chapter:Verse. -/
def parseReference (reference : String) : Option (String × Nat × Nat) :=
  parseRefAux [] (trimWs reference.toList)

/-- Rust str::eq_ignore_ascii_case (Lean's Char.toLower folds exactly the
ASCII range). -/
def eqIgnoreCase (a b : String) : Bool :=
  a.toList.map Char.toLower == b.toList.map Char.toLower

/-- The source-verse lookup of find_cross_references (lines 313-315):
case-insensitive book, exact chapter and verse. -/
def findVerse (bible : List Verse) (book : String) (chapter verse : Nat) : Option Verse :=
  bible.find? (fun v => eqIgnoreCase v.book book && v.chapter == chapter && v.verse == verse)


/-- The per-candidate scoring of find_cross_references (lines 352-373):
Jaccard keeps a candidate whose similarity passes the threshold under the
f32 comparison; n-gram keeps a candidate with at least one variant match
and scores it by the match count. -/
def scoreVerse (metric : SimilarityMetric) (source_verse : Verse)
    (source_words : List String) (m : SynonymMapper) (use_synonyms : Bool)
    (v : Verse) : Option ℚ :=
  match metric with
  | .Jaccard threshold =>
    let target_words := extract_words v.text m use_synonyms
    let sim := calculate_jaccard_similarity source_words target_words
    if F32.fge (.finite sim) threshold then some sim else none
  | .NGram n =>
    if has_ngram_match source_verse.text v.text n m use_synonyms then
      some (count_ngram_matches source_verse.text v.text n m use_synonyms : ℚ)
    else none

/-- The candidate list of find_cross_references before sorting (lines
345-374): every verse other than the source identity, paired with its
score when it qualifies. -/
def qualifyingCandidates (bible : List Verse) (m : SynonymMapper) (source_verse : Verse)
    (metric : SimilarityMetric) (source_words : List String) (use_synonyms : Bool) :
    List (ℚ × Verse) :=
  (bible.filter (fun v =>
      !(eqIgnoreCase v.book source_verse.book && v.chapter == source_verse.chapter
        && v.verse == source_verse.verse))).filterMap
    (fun v => (scoreVerse metric source_verse source_words m use_synonyms v).map
      (fun s => (s, v)))

/-- Stable insertion for the descending sort of line 377
(similarities.sort_by(|a, b| b.0.partial_cmp(&a.0).unwrap())): an element
goes in front of the first element whose score it reaches, which keeps
equal scores in first-seen order exactly as Rust's stable sort does. -/
def insertDesc (x : ℚ × Verse) : List (ℚ × Verse) → List (ℚ × Verse)
  | [] => [x]
  | y :: ys => if y.1 ≤ x.1 then x :: y :: ys else y :: insertDesc x ys

def sortByScoreDesc : List (ℚ × Verse) → List (ℚ × Verse)
  | [] => []
  | x :: xs => insertDesc x (sortByScoreDesc xs)

/-- The outcome of find_cross_references. The function prints its results;
this captures what it computes: the two failure messages, the deliberate
empty short-circuit for a source verse with no significant words, and the
sorted, truncated scored-candidate list (an empty list is printed as "no
cross-references found", a presentation difference only). -/
inductive CrossRefResult where
  | invalidFormat
  | verseNotFound
  | noSignificantWords
  | results (l : List (ℚ × Verse))
deriving DecidableEq, Repr

/-- find_cross_references of bible.rs (lines 296-434): parse the
reference, find the source verse, extract its words, short-circuit when
they are empty, score all other verses, sort descending, truncate to the
limit. -/
def find_cross_references (bible : List Verse) (m : SynonymMapper) (reference : String)
    (similarity_str : String) (use_synonyms : Bool) (limit : Option Nat) : CrossRefResult :=
  match parseReference reference with
  | none => .invalidFormat
  | some (book, chapter, verse_num) =>
    match findVerse bible book chapter verse_num with
    | none => .verseNotFound
    | some source_verse =>
      let similarity_metric := parse_similarity_metric similarity_str
      let source_words := extract_words source_verse.text m use_synonyms
      if source_words = [] then .noSignificantWords
      else
        let similarities :=
          qualifyingCandidates bible m source_verse similarity_metric source_words use_synonyms
        let sorted := sortByScoreDesc similarities
        .results (match limit with | some lim => sorted.take lim | none => sorted)

/-- The candidate list find_cross_references builds for these arguments
(empty whenever it does not reach the scoring loop); the sorted, truncated
result is a function of this list. -/
def crossRefCandidates (bible : List Verse) (m : SynonymMapper) (reference : String)
    (similarity_str : String) (use_synonyms : Bool) : List (ℚ × Verse) :=
  match parseReference reference with
  | none => []
  | some (book, chapter, verse_num) =>
    match findVerse bible book chapter verse_num with
    | none => []
    | some source_verse =>
      let source_words := extract_words source_verse.text m use_synonyms
      if source_words = [] then []
      else
        qualifyingCandidates bible m source_verse (parse_similarity_metric similarity_str)
          source_words use_synonyms

/-- Stated from the spec's words (§3, §4.3), for comparison with the code:
the synonym choices available at one position of an n-gram — the word's
synonym list when it is mapped, the word alone otherwise. -/
def wordChoices (m : SynonymMapper) (w : String) : List String :=
  match synGet m w with
  | some syns => syns
  | none => [w]

/-- Stated from the spec's words (§3, §4.3): the choices at every position
of the n-gram. -/
def synonymChoices (m : SynonymMapper) (g : List String) : List (List String) :=
  g.map (wordChoices m)

/-- Stated from the spec's words (§4.3 note): the full Cartesian product
of the synonym choices at all positions, as the list of all position-wise
selections. -/
def cartesianVariations (m : SynonymMapper) (g : List String) : List (List String) :=
  (synonymChoices m g).sections

/-- Stated from the spec's words (§4.3, C1): one n-gram per start position,
each a contiguous run of n significant words in their order of appearance
in the text. -/
def sourceOrderNgrams (text : String) (n : Nat) : List (List String) :=
  let words := significantWords text
  if words.length < n then []
  else (List.range (words.length - n + 1)).map (fun i => (words.drop i).take n)

theorem mem_dedupAdj : ∀ (l : List String) (x : String), x ∈ dedupAdj l ↔ x ∈ l := by
  intro l
  induction l with
  | nil => intro x; simp [dedupAdj]
  | cons a t ih =>
    cases t with
    | nil => intro x; simp [dedupAdj]
    | cons b r =>
      intro x
      by_cases hab : a = b
      · subst hab
        simp [dedupAdj, ih]
      · simp [dedupAdj, hab, ih]

theorem mem_insertStr (y : String) :
    ∀ (l : List String) (x : String), x ∈ insertStr y l ↔ x = y ∨ x ∈ l := by
  intro l
  induction l with
  | nil => intro x; simp [insertStr]
  | cons a t ih =>
    intro x
    by_cases h : strLe y a = true
    · simp [insertStr, h]
    · simp only [insertStr, h]
      simp [ih, List.mem_cons]
      tauto

theorem mem_sortStrings : ∀ (l : List String) (x : String), x ∈ sortStrings l ↔ x ∈ l := by
  intro l
  induction l with
  | nil => intro x; simp [sortStrings]
  | cons a t ih =>
    intro x
    simp [sortStrings, mem_insertStr, ih]

theorem synGet_self_mem {m : SynonymMapper} (hm : synMapInvariant m) :
    ∀ {w : String} {syns : List String}, synGet m w = some syns → w ∈ syns := by
  intro w syns h
  unfold synGet at h
  induction m with
  | nil => simp [List.lookup] at h
  | cons p t ih =>
    obtain ⟨k, b⟩ := p
    by_cases hk : w = k
    · subst hk
      have heq : List.lookup w ((w, b) :: t) = some b := by
        simp [List.lookup]
      rw [heq] at h
      injection h with h2
      rw [← h2]
      exact hm (w, b) (List.mem_cons_self _ _)
    · have heq : List.lookup w ((k, b) :: t) = List.lookup w t := by
        have hbeq : (w == k) = false := beq_eq_false_iff_ne.mpr hk
        simp [List.lookup, hbeq]
      rw [heq] at h
      exact ih (fun q hq => hm q (List.mem_cons_of_mem _ hq)) h

theorem mem_expandWords {m : SynonymMapper} (hm : synMapInvariant m) :
    ∀ (ws : List String) (w : String), w ∈ ws → w ∈ expandWords m ws := by
  intro ws
  induction ws with
  | nil => intro w hw; cases hw
  | cons a t ih =>
    intro w hw
    unfold expandWords
    cases hsyn : synGet m a with
    | some syns =>
      rcases List.mem_cons.mp hw with rfl | hw2
      · exact List.mem_append_left _ (synGet_self_mem hm hsyn)
      · exact List.mem_append_right _ (ih w hw2)
    | none =>
      rcases List.mem_cons.mp hw with rfl | hw2
      · exact List.mem_cons_self _ _
      · exact List.mem_cons_of_mem _ (ih w hw2)

/-- C7: for every synonym map whose every mapped word's synonym list
contains the word itself, and every verse text, the synonym-expanded
significant-word set of extract_words is a superset of (or equal to) the
unexpanded one — expansion never removes a word. -/
theorem extract_words_expansion_superset (text : String) (m : SynonymMapper)
    (hm : synMapInvariant m) :
    ∀ w ∈ extract_words text m false, w ∈ extract_words text m true := by
  intro w hw
  unfold extract_words at hw ⊢
  simp only [if_true, if_false, Bool.false_eq_true, ite_false, ite_true] at hw ⊢
  rw [mem_dedupAdj, mem_sortStrings] at hw
  rw [mem_dedupAdj, mem_sortStrings]
  exact mem_expandWords hm _ w hw

/-- C7 witness: a concrete map satisfying the invariant, with a concrete
text whose plain word "god" survives into the expanded set. -/
theorem extract_words_expansion_superset_witness :
    synMapInvariant [("god", ["god", "lord"])] ∧
    "god" ∈ extract_words "For God so loved the world" [("god", ["god", "lord"])] true := by
  refine ⟨by decide, ?_⟩
  exact extract_words_expansion_superset "For God so loved the world"
    [("god", ["god", "lord"])] (by decide) "god" (by decide)

/-- C3: calculate_jaccard_similarity is 0 whenever either word list is
empty, and otherwise equals the intersection-over-union fraction, whose
denominator is then provably non-zero — the degenerate empty-union case
cannot divide by zero. -/
theorem calculate_jaccard_similarity_spec (A B : List String) :
    (A = [] ∨ B = [] → calculate_jaccard_similarity A B = 0) ∧
    (A ≠ [] → B ≠ [] →
      (A.toFinset ∪ B.toFinset).card ≠ 0 ∧
      calculate_jaccard_similarity A B =
        ((A.toFinset ∩ B.toFinset).card : ℚ) / ((A.toFinset ∪ B.toFinset).card : ℚ)) := by
  constructor
  · intro h
    unfold calculate_jaccard_similarity
    rw [if_pos h]
  · intro hA hB
    have hcard : (A.toFinset ∪ B.toFinset).card ≠ 0 := by
      obtain ⟨a, t, rfl⟩ := List.exists_cons_of_ne_nil hA
      have ha : a ∈ (a :: t).toFinset ∪ B.toFinset := by
        simp
      exact Finset.card_ne_zero_of_mem ha
    refine ⟨hcard, ?_⟩
    unfold calculate_jaccard_similarity
    rw [if_neg (by tauto), if_neg hcard]

/-- C10: the legacy copy calculate_similarity of _main.rs computes exactly
the same function as calculate_jaccard_similarity of bible.rs. -/
theorem calculate_similarity_eq_jaccard (A B : List String) :
    calculate_similarity A B = calculate_jaccard_similarity A B := rfl

/-- C9: both metrics stay in the finite fragment of f32 — the Jaccard
computation refines the rational model (its division is guarded), the
n-gram score is a cast count — and partial_cmp on finite values is always
some, so the descending sort's unwrap cannot panic. -/
theorem cross_reference_scores_finite (A B : List String) (t1 t2 : String) (n : Nat)
    (m : SynonymMapper) (u : Bool) :
    calculate_jaccard_similarity_f32 A B = F32.finite (calculate_jaccard_similarity A B) ∧
    count_ngram_matches_f32 t1 t2 n m u =
      F32.finite ((count_ngram_matches t1 t2 n m u : ℚ)) ∧
    (∀ p q : ℚ, (F32.partialCmp (F32.finite p) (F32.finite q)).isSome = true) := by
  refine ⟨?_, rfl, fun p q => rfl⟩
  unfold calculate_jaccard_similarity_f32 calculate_jaccard_similarity
  by_cases hAB : A = [] ∨ B = []
  · rw [if_pos hAB, if_pos hAB]
  · rw [if_neg hAB, if_neg hAB]
    by_cases hu : (A.toFinset ∪ B.toFinset).card = 0
    · rw [if_pos hu, if_pos hu]
    · rw [if_neg hu, if_neg hu]
      unfold F32.fdiv
      rw [if_neg (by exact_mod_cast hu)]

/-- C6: whenever the reference parses, the source verse is found, and its
significant-word set is empty, find_cross_references short-circuits with
the noSignificantWords outcome — an intentionally empty result, with no
candidate scored. -/
theorem find_cross_references_empty_words (bible : List Verse) (m : SynonymMapper)
    (reference similarity_str : String) (use_synonyms : Bool) (limit : Option Nat)
    (book : String) (chapter verse_num : Nat) (source_verse : Verse)
    (h1 : parseReference reference = some (book, chapter, verse_num))
    (h2 : findVerse bible book chapter verse_num = some source_verse)
    (h3 : extract_words source_verse.text m use_synonyms = []) :
    find_cross_references bible m reference similarity_str use_synonyms limit =
      .noSignificantWords := by
  simp [find_cross_references, h1, h2, h3]

/-- C6 witness: a one-verse corpus whose verse is all stop words. -/
theorem find_cross_references_empty_words_witness :
    find_cross_references [⟨"John", 3, 16, "For so the"⟩] [] "John 3:16" "0.1" false none =
      .noSignificantWords :=
  find_cross_references_empty_words [⟨"John", 3, 16, "For so the"⟩] [] "John 3:16" "0.1"
    false none "John" 3 16 ⟨"John", 3, 16, "For so the"⟩ (by decide) (by decide) (by decide)

/-- The descending order on scored candidates used by the sort of line 377. -/
def scoreGE (p q : ℚ × Verse) : Prop :=
  q.1 ≤ p.1

theorem mem_insertDesc (x : ℚ × Verse) :
    ∀ (l : List (ℚ × Verse)) (z : ℚ × Verse), z ∈ insertDesc x l ↔ z = x ∨ z ∈ l := by
  intro l
  induction l with
  | nil => intro z; simp [insertDesc]
  | cons y ys ih =>
    intro z
    by_cases h : y.1 ≤ x.1
    · simp [insertDesc, h]
    · simp only [insertDesc, if_neg h]
      simp [ih, List.mem_cons]
      tauto

theorem sorted_insertDesc (x : ℚ × Verse) :
    ∀ (l : List (ℚ × Verse)), List.Sorted scoreGE l → List.Sorted scoreGE (insertDesc x l) := by
  intro l
  induction l with
  | nil => intro _; simp [insertDesc, List.Sorted]
  | cons y ys ih =>
    intro hs
    rw [List.sorted_cons] at hs
    obtain ⟨hy, hys⟩ := hs
    by_cases h : y.1 ≤ x.1
    · simp only [insertDesc, if_pos h]
      rw [List.sorted_cons]
      constructor
      · intro z hz
        rcases List.mem_cons.mp hz with rfl | hz2
        · exact h
        · exact le_trans (hy z hz2) h
      · rw [List.sorted_cons]
        exact ⟨hy, hys⟩
    · simp only [insertDesc, if_neg h]
      rw [List.sorted_cons]
      constructor
      · intro z hz
        rcases (mem_insertDesc x ys z).mp hz with rfl | hz2
        · exact le_of_not_le h
        · exact hy z hz2
      · exact ih hys

theorem sorted_sortByScoreDesc (l : List (ℚ × Verse)) :
    List.Sorted scoreGE (sortByScoreDesc l) := by
  induction l with
  | nil => simp [sortByScoreDesc, List.Sorted]
  | cons x xs ih => exact sorted_insertDesc x (sortByScoreDesc xs) ih

theorem length_insertDesc (x : ℚ × Verse) :
    ∀ (l : List (ℚ × Verse)), (insertDesc x l).length = l.length + 1 := by
  intro l
  induction l with
  | nil => simp [insertDesc]
  | cons y ys ih =>
    by_cases h : y.1 ≤ x.1
    · simp [insertDesc, h]
    · simp [insertDesc, h, ih]

theorem length_sortByScoreDesc (l : List (ℚ × Verse)) :
    (sortByScoreDesc l).length = l.length := by
  induction l with
  | nil => rfl
  | cons x xs ih => simp [sortByScoreDesc, length_insertDesc, ih]

/-- C4: every result list of find_cross_references is sorted by score in
descending order, and under a configured limit its length is the minimum
of the limit and the number of qualifying candidates. -/
theorem find_cross_references_sorted_truncated (bible : List Verse) (m : SynonymMapper)
    (reference similarity_str : String) (use_synonyms : Bool) (limit : Option Nat)
    (l : List (ℚ × Verse))
    (h : find_cross_references bible m reference similarity_str use_synonyms limit =
      .results l) :
    List.Sorted scoreGE l ∧
    (∀ lim, limit = some lim →
      l.length =
        min lim (crossRefCandidates bible m reference similarity_str use_synonyms).length) := by
  unfold find_cross_references at h
  unfold crossRefCandidates
  cases hp : parseReference reference with
  | none => rw [hp] at h; cases h
  | some triple =>
    obtain ⟨book, chapter, verse_num⟩ := triple
    simp only [hp] at h ⊢
    cases hv : findVerse bible book chapter verse_num with
    | none => simp only [hv] at h; cases h
    | some source_verse =>
      simp only [hv] at h ⊢
      by_cases hw : extract_words source_verse.text m use_synonyms = []
      · rw [if_pos hw] at h; cases h
      · rw [if_neg hw] at h
        simp only [if_neg hw]
        cases limit with
        | none =>
          injection h with h2
          constructor
          · rw [← h2]; exact sorted_sortByScoreDesc _
          · intro lim hl; cases hl
        | some lim =>
          injection h with h2
          constructor
          · rw [← h2]
            exact (sorted_sortByScoreDesc _).sublist (List.take_sublist _ _)
          · intro lim2 hl
            injection hl with hl2
            subst hl2
            rw [← h2, List.length_take, length_sortByScoreDesc]

/-- C4 witness: the two-verse corpus with limit 1 keeps exactly
min(1, 1) = 1 candidate, in sorted order. -/
theorem find_cross_references_sorted_truncated_witness :
    List.Sorted scoreGE [((2 : ℚ)/5, ⟨"John", 3, 17, "For God sent not his Son into the world"⟩)] ∧
    (∀ lim, (some 1 : Option Nat) = some lim →
      ([((2 : ℚ)/5, ⟨"John", 3, 17, "For God sent not his Son into the world"⟩)] :
          List (ℚ × Verse)).length =
        min lim (crossRefCandidates
          [⟨"John", 3, 16, "For God so loved the world"⟩,
           ⟨"John", 3, 17, "For God sent not his Son into the world"⟩]
          [] "John 3:16" "0.1" false).length) :=
  find_cross_references_sorted_truncated
    [⟨"John", 3, 16, "For God so loved the world"⟩,
     ⟨"John", 3, 17, "For God sent not his Son into the world"⟩]
    [] "John 3:16" "0.1" false (some 1)
    [((2 : ℚ)/5, ⟨"John", 3, 17, "For God sent not his Son into the world"⟩)]
    (by with_unfolding_all decide)


theorem take_set_self {α : Type} (l : List α) (k : Nat) (a : α) :
    (l.set k a).take k = l.take k := by
  induction l generalizing k with
  | nil => simp
  | cons b t ih =>
    cases k with
    | zero => simp
    | succ k2 => simp [List.set, ih]

theorem take_succ_getElem {α : Type} {l : List α} {k : Nat} (hk : k < l.length) :
    l.take (k + 1) = l.take k ++ [l[k]] := by
  rw [List.take_succ, List.getElem?_eq_getElem hk]
  rfl

theorem getElem_eq_of_take_succ {α : Type} {x v : List α} {k : Nat}
    (hx : k < x.length) (hv : k < v.length) (h : x.take (k + 1) = v.take (k + 1)) :
    x[k] = v[k] := by
  rw [take_succ_getElem hx, take_succ_getElem hv] at h
  have h1 : (x.take k).length = (v.take k).length := by
    simp only [List.length_take]
    omega
  obtain ⟨-, h2⟩ := List.append_inj h h1
  injection h2

theorem drop_cons_parts {α : Type} {v : List α} {k : Nat} {w : α} {ws : List α}
    (h : v.drop k = w :: ws) :
    ∃ hk : k < v.length, v[k] = w ∧ v.drop (k + 1) = ws := by
  have hk : k < v.length := by
    by_contra hn
    push_neg at hn
    rw [List.drop_eq_nil_of_le hn] at h
    cases h
  have h2 : v.drop k = v[k] :: v.drop (k + 1) := List.drop_eq_getElem_cons hk
  rw [h2] at h
  injection h with ha hb
  exact ⟨hk, ha, hb⟩

theorem foldl_variationStep_mem (m : SynonymMapper) (hm : synMapInvariant m) :
    ∀ (ws : List String) (k : Nat) (vs : List (List String)),
      (∀ v ∈ vs, v.drop k = ws) →
      ∀ x, (x ∈ (List.enumFrom k ws).foldl (ngramVariationStep m) vs ↔
        ∃ v ∈ vs, x.length = v.length ∧ x.take k = v.take k ∧
          List.Forall₂ (fun xi wi => xi ∈ wordChoices m wi) (x.drop k) ws) := by
  intro ws
  induction ws with
  | nil =>
    intro k vs hvs x
    simp only [List.enumFrom_nil, List.foldl_nil]
    constructor
    · intro hx
      refine ⟨x, hx, rfl, rfl, ?_⟩
      rw [hvs x hx]
      exact List.Forall₂.nil
    · rintro ⟨v, hv, hlen, htake, hf⟩
      have hxd : x.drop k = [] := List.forall₂_nil_right_iff.mp hf
      have hvd : v.drop k = [] := hvs v hv
      have hxv : x = v := by
        calc x = x.take k ++ x.drop k := (List.take_append_drop k x).symm
        _ = v.take k ++ v.drop k := by rw [hxd, hvd, htake]
        _ = v := List.take_append_drop k v
      rw [hxv]
      exact hv
  | cons w ws2 ih =>
    intro k vs hvs x
    rw [List.enumFrom_cons, List.foldl_cons]
    cases hsyn : synGet m w with
    | none =>
      have hchoice : wordChoices m w = [w] := by
        unfold wordChoices
        rw [hsyn]
      have hstep : ngramVariationStep m vs (k, w) = vs := by
        unfold ngramVariationStep
        rw [hsyn]
      have hdrop1 : ∀ v ∈ vs, v.drop (k + 1) = ws2 := fun v hv =>
        (drop_cons_parts (hvs v hv)).choose_spec.2
      rw [hstep, ih (k + 1) vs hdrop1 x]
      constructor
      · rintro ⟨v, hv, hlen, htake, hf⟩
        obtain ⟨hkv, hgetv, hdropv⟩ := drop_cons_parts (hvs v hv)
        have hkx : k < x.length := by omega
        refine ⟨v, hv, hlen, ?_, ?_⟩
        · have h2 := congrArg (List.take k) htake
          rwa [List.take_take, List.take_take, Nat.min_eq_left (Nat.le_succ k)] at h2
        · rw [List.drop_eq_getElem_cons hkx]
          refine List.Forall₂.cons ?_ hf
          rw [hchoice]
          have hx : x[k] = v[k] := getElem_eq_of_take_succ hkx hkv htake
          simp [hx, hgetv]
      · rintro ⟨v, hv, hlen, htake, hf⟩
        obtain ⟨hkv, hgetv, hdropv⟩ := drop_cons_parts (hvs v hv)
        have hkx : k < x.length := by
          by_contra hn
          push_neg at hn
          rw [List.drop_eq_nil_of_le hn] at hf
          cases hf
        rw [List.drop_eq_getElem_cons hkx] at hf
        cases hf with
        | cons hhead htail =>
          rw [hchoice] at hhead
          have hxw : x[k] = w := by simpa using hhead
          refine ⟨v, hv, hlen, ?_, htail⟩
          rw [take_succ_getElem hkx, take_succ_getElem hkv, htake, hxw, hgetv]
    | some syns =>
      have hchoice : wordChoices m w = syns := by
        unfold wordChoices
        rw [hsyn]
      have hwmem : w ∈ syns := synGet_self_mem hm hsyn
      have hstep : ngramVariationStep m vs (k, w) =
          vs ++ vs.flatMap (fun v => syns.map (fun s => v.set k s)) := by
        unfold ngramVariationStep
        rw [hsyn]
      have hdrop1 : ∀ v ∈ vs, v.drop (k + 1) = ws2 := fun v hv =>
        (drop_cons_parts (hvs v hv)).choose_spec.2
      have hvs2 : ∀ v2 ∈ vs ++ vs.flatMap (fun v => syns.map (fun s => v.set k s)),
          v2.drop (k + 1) = ws2 := by
        intro v2 hv2
        rcases List.mem_append.mp hv2 with hin | hin
        · exact hdrop1 v2 hin
        · obtain ⟨v, hv, hmap⟩ := List.mem_flatMap.mp hin
          obtain ⟨s, _, rfl⟩ := List.mem_map.mp hmap
          rw [List.drop_set, if_pos (Nat.lt_succ_self k)]
          exact hdrop1 v hv
      rw [hstep, ih (k + 1) _ hvs2 x]
      constructor
      · rintro ⟨v2, hv2, hlen, htake, hf⟩
        rcases List.mem_append.mp hv2 with hin | hin
        · obtain ⟨hkv, hgetv, hdropv⟩ := drop_cons_parts (hvs v2 hin)
          have hkx : k < x.length := by omega
          refine ⟨v2, hin, hlen, ?_, ?_⟩
          · have h2 := congrArg (List.take k) htake
            rwa [List.take_take, List.take_take, Nat.min_eq_left (Nat.le_succ k)] at h2
          · rw [List.drop_eq_getElem_cons hkx]
            refine List.Forall₂.cons ?_ hf
            rw [hchoice]
            have hx : x[k] = v2[k] := getElem_eq_of_take_succ hkx hkv htake
            rw [hx, hgetv]
            exact hwmem
        · obtain ⟨v, hv, hmap⟩ := List.mem_flatMap.mp hin
          obtain ⟨s, hs, rfl⟩ := List.mem_map.mp hmap
          obtain ⟨hkv, hgetv, hdropv⟩ := drop_cons_parts (hvs v hv)
          have hkv2 : k < (v.set k s).length := by
            rw [List.length_set]
            exact hkv
          have hkx : k < x.length := by
            rw [hlen, List.length_set]
            exact hkv
          have hget2 : (v.set k s)[k] = s := by
            simp
          refine ⟨v, hv, ?_, ?_, ?_⟩
          · rw [hlen, List.length_set]
          · have h2 := congrArg (List.take k) htake
            rw [List.take_take, List.take_take, Nat.min_eq_left (Nat.le_succ k)] at h2
            rwa [take_set_self] at h2
          · rw [List.drop_eq_getElem_cons hkx]
            refine List.Forall₂.cons ?_ hf
            rw [hchoice]
            have hx : x[k] = (v.set k s)[k] :=
              getElem_eq_of_take_succ hkx hkv2 htake
            rw [hx, hget2]
            exact hs
      · rintro ⟨v, hv, hlen, htake, hf⟩
        obtain ⟨hkv, hgetv, hdropv⟩ := drop_cons_parts (hvs v hv)
        have hkx : k < x.length := by
          by_contra hn
          push_neg at hn
          rw [List.drop_eq_nil_of_le hn] at hf
          cases hf
        rw [List.drop_eq_getElem_cons hkx] at hf
        cases hf with
        | cons hhead htail =>
          rw [hchoice] at hhead
          refine ⟨v.set k x[k], ?_, ?_, ?_, htail⟩
          · refine List.mem_append_right _ (List.mem_flatMap.mpr ⟨v, hv, ?_⟩)
            exact List.mem_map_of_mem _ hhead
          · rw [List.length_set]
            exact hlen
          · have hkv2 : k < (v.set k x[k]).length := by
              rw [List.length_set]
              exact hkv
            rw [take_succ_getElem hkx, take_succ_getElem hkv2, take_set_self, htake]
            congr 1
            simp

theorem ngramVariations_mem (m : SynonymMapper) (hm : synMapInvariant m) (g x : List String) :
    x ∈ ngramVariations m g ↔
      List.Forall₂ (fun xi wi => xi ∈ wordChoices m wi) x g := by
  unfold ngramVariations
  have henum : g.enum = List.enumFrom 0 g := rfl
  rw [henum, foldl_variationStep_mem m hm g 0 [g]
    (by intro v hv; simp at hv; rw [hv]; exact List.drop_zero g) x]
  constructor
  · rintro ⟨v, hv, hlen, -, hf⟩
    simp at hv
    subst hv
    simpa using hf
  · intro hf
    exact ⟨g, by simp, hf.length_eq, rfl, by simpa using hf⟩

/-- C2 (amended): for every n-gram and every synonym map satisfying the
SynonymMap invariant, the variant set generated by the per-position
incremental substitution rule of extract_ngrams is, as a set, exactly the
full Cartesian product of the synonym choices at all positions — the
expansion is combinatorially complete, contrary to the spec's quirk note
(only the generated list's order and multiplicities differ from the
product enumeration). -/
theorem ngramVariations_eq_cartesian (m : SynonymMapper) (g : List String)
    (hm : synMapInvariant m) (v : List String) :
    v ∈ ngramVariations m g ↔ v ∈ cartesianVariations m g := by
  rw [ngramVariations_mem m hm g v]
  unfold cartesianVariations synonymChoices
  rw [List.mem_sections]
  exact (List.forall₂_map_right_iff).symm

/-- C2 witness: a two-position n-gram, both positions mapped, at the
cross-combined variant that the incremental rule would miss if it were
not combinatorially complete. -/
theorem ngramVariations_eq_cartesian_witness :
    synMapInvariant [("aaa", ["aaa", "xxx"]), ("bbb", ["bbb", "yyy"])] ∧
    (["xxx", "yyy"] ∈ ngramVariations [("aaa", ["aaa", "xxx"]), ("bbb", ["bbb", "yyy"])]
        ["aaa", "bbb"] ↔
      ["xxx", "yyy"] ∈ cartesianVariations [("aaa", ["aaa", "xxx"]), ("bbb", ["bbb", "yyy"])]
        ["aaa", "bbb"]) :=
  ⟨by decide,
   ngramVariations_eq_cartesian [("aaa", ["aaa", "xxx"]), ("bbb", ["bbb", "yyy"])]
     ["aaa", "bbb"] (by decide) ["xxx", "yyy"]⟩

/-- C2 counterexample to the claimed difference: at the paradigm two-mapped-
position n-gram the incrementally generated variant set coincides exactly
(as a set) with the full Cartesian product of the synonym choices. -/
theorem ngramVariations_product_coincide_example :
    (ngramVariations [("aaa", ["aaa", "xxx"]), ("bbb", ["bbb", "yyy"])]
        ["aaa", "bbb"]).toFinset =
      (cartesianVariations [("aaa", ["aaa", "xxx"]), ("bbb", ["bbb", "yyy"])]
        ["aaa", "bbb"]).toFinset := by
  decide

/-- C1: the code builds its n-grams from the sorted, deduplicated word
list, not the source-order word sequence: on the text "loved world god"
(significant words in appearance order loved, world, god) the code's
bigrams pair alphabetically adjacent words, and differ from the
appearance-order bigrams the spec describes. -/
theorem extract_ngrams_not_source_order :
    extract_ngrams "loved world god" 2 [] false = [["god", "loved"], ["loved", "world"]] ∧
    sourceOrderNgrams "loved world god" 2 = [["loved", "world"], ["world", "god"]] ∧
    extract_ngrams "loved world god" 2 [] false ≠ sourceOrderNgrams "loved world god" 2 := by
  refine ⟨by decide, by decide, by decide⟩

/-- C5: the end-to-end scenario of the spec (§8): the two-verse John 3
corpus with no synonyms and Jaccard threshold 0.1 yields the expected
significant-word lists and exactly one candidate, John 3:17 with score
2/5. -/
theorem end_to_end_scenario_one :
    extract_words "For God so loved the world" [] false = ["god", "loved", "world"] ∧
    extract_words "For God sent not his Son into the world" [] false =
      ["god", "sent", "son", "world"] ∧
    find_cross_references
      [⟨"John", 3, 16, "For God so loved the world"⟩,
       ⟨"John", 3, 17, "For God sent not his Son into the world"⟩]
      [] "John 3:16" "0.1" false none =
      .results [((2 : ℚ)/5, ⟨"John", 3, 17, "For God sent not his Son into the world"⟩)] := by
  refine ⟨by decide, by decide, by with_unfolding_all decide⟩

theorem gramMetric_ngram {cs : List Char} {metric : SimilarityMetric}
    (h : gramMetric cs = some metric) : ∃ n, metric = .NGram n := by
  unfold gramMetric at h
  split at h
  · split at h
    · split at h
      · injection h with h2
        exact ⟨_, h2.symm⟩
      · cases h
    · cases h
  · cases h

theorem clamp_unit_of_ne_nan {v : F32} (h : v ≠ F32.nan) :
    F32.inUnitInterval (v.clamp 0 1) := by
  cases v with
  | finite q =>
    simp only [F32.clamp]
    by_cases h1 : q < 0
    · rw [if_pos h1]
      exact ⟨le_refl 0, by norm_num⟩
    · rw [if_neg h1]
      by_cases h2 : (1 : ℚ) < q
      · rw [if_pos h2]
        exact ⟨by norm_num, le_refl 1⟩
      · rw [if_neg h2]
        exact ⟨le_of_not_lt h1, le_of_not_lt h2⟩
  | inf => exact ⟨by norm_num, le_refl 1⟩
  | negInf => exact ⟨le_refl 0, by norm_num⟩
  | nan => exact absurd rfl h

/-- C8 (amended): every metric string that does not take the n-gram branch
and parses as a floating-point value other than NaN yields a Jaccard
threshold clamped into the unit interval (the NaN exception: "nan" parses
and clamps to NaN, which lies in no interval). -/
theorem parse_similarity_metric_threshold_clamped (s : String) (v t : F32)
    (hv : parseF32 (String.mk ((trimWs s.toList).map Char.toLower)) = some v)
    (hnan : v ≠ F32.nan)
    (ht : parse_similarity_metric s = .Jaccard t) :
    F32.inUnitInterval t := by
  unfold parse_similarity_metric at ht
  simp only at ht
  cases hg : gramMetric ((trimWs s.toList).map Char.toLower) with
  | some metric =>
    rw [hg] at ht
    simp only at ht
    obtain ⟨n, rfl⟩ := gramMetric_ngram hg
    cases ht
  | none =>
    rw [hg] at ht
    simp only [hv] at ht
    injection ht with ht2
    rw [← ht2]
    exact clamp_unit_of_ne_nan hnan

/-- C8 witness: "2.5" parses as 5/2 and is clamped to threshold 1, inside
the unit interval. -/
theorem parse_similarity_metric_threshold_clamped_witness :
    F32.inUnitInterval (F32.finite 1) :=
  parse_similarity_metric_threshold_clamped "2.5" (F32.finite (5 / 2)) (F32.finite 1)
    (by with_unfolding_all decide) (by decide) (by with_unfolding_all decide)

/-- C8 counterexample: the string "nan" does not name an n-gram, parses as
a float (NaN), and produces a Jaccard threshold of NaN — clamp propagates
NaN, so the threshold lies outside [0,1]. -/
theorem parse_similarity_metric_nan_example :
    parse_similarity_metric "nan" = .Jaccard .nan ∧ ¬ F32.inUnitInterval F32.nan := by
  exact ⟨by decide, by decide⟩
